import Mathlib

/-!
Verification of the ABSORB surface-adsorption engine.

This file gives a shallow embedding, in Lean 4, of the algorithmic core of
the repository (site discovery, orientation optimization, result ranking,
and surface-mesh / energy-field construction) and proves the testable
properties stated in its specification.

Modelling conventions:

* Machine floats are modelled by exact rationals.  Every comparison the
  source performs on a Euclidean norm is expressed on the squared norm
  (an exact equivalence; see the doc comments of the definitions involved).
* External library calls (scipy KD-tree queries, Delaunay triangulation,
  scattered interpolation) are modelled by executable Lean definitions that
  follow their documented contracts; each such definition carries a doc
  comment saying what is modelled.
* The black-box energy oracle is a parameter of the optimizer definitions.
-/

set_option maxRecDepth 4000

namespace Absorb

/-! ## Rational 3-vectors and 2-vectors -/

/-- A 3-vector of exact rationals, modelling a numpy float64 3-vector. -/
abbrev V3 := ℚ × ℚ × ℚ

/-- A 2-vector of exact rationals (projection of a `V3` onto a plane). -/
abbrev V2 := ℚ × ℚ

/-- Dot product of two 3-vectors. -/
def dot (a b : V3) : ℚ := a.1 * b.1 + a.2.1 * b.2.1 + a.2.2 * b.2.2

/-- Cross product of two 3-vectors, as in `np.cross`. -/
def cross (a b : V3) : V3 :=
  (a.2.1 * b.2.2 - a.2.2 * b.2.1,
   a.2.2 * b.1 - a.1 * b.2.2,
   a.1 * b.2.1 - a.2.1 * b.1)

/-- Squared Euclidean norm of a 3-vector. -/
def normSq (a : V3) : ℚ := dot a a

/-- Squared Euclidean distance between two 3-vectors. -/
def distSq (a b : V3) : ℚ := normSq (a - b)

/-- Squared Euclidean distance between two 2-vectors. -/
def distSq2 (a b : V2) : ℚ := (a.1 - b.1) ^ 2 + (a.2 - b.2) ^ 2

/-- Exact rendering of the float comparison `np.linalg.norm v < d`:
for positive `d` it is `normSq v < d ^ 2`, and for `d ≤ 0` it is false
because a norm is non-negative.  This avoids the (irrational) square root. -/
def normLt (v : V3) (d : ℚ) : Prop := 0 < d ∧ normSq v < d ^ 2

instance (v : V3) (d : ℚ) : Decidable (normLt v d) := by unfold normLt; infer_instance

/-- Python `int(q)`: truncation toward zero (floor for non-negative
arguments, ceiling for negative ones). -/
def pyint (q : ℚ) : ℤ := if q < 0 then ⌈q⌉ else ⌊q⌋

/-! ## MeshDataProcessor (src/backend/core/surface_mesh/mesh_data_processor.py) -/

/-- Embeds `MeshDataProcessor._viridis_color`.  Input is the normalized
energy in `[0, 1]`; output is the `(r, g, b)` byte triple that the source
formats as the hex string `"#rrggbb"`. -/
def viridis_color (value : ℚ) : ℤ × ℤ × ℤ :=
  let v := 1 - value
  if v < 1/2 then (pyint (255 * (1 - v * 2)), 255, 0)
  else (255, pyint (255 * (2 - v * 2)), 0)

/-- Embeds `MeshDataProcessor._hot_color` as an `(r, g, b)` triple. -/
def hot_color (value : ℚ) : ℤ × ℤ × ℤ :=
  if value < 33/100 then (pyint (255 * value / (33/100)), 0, 0)
  else if value < 67/100 then (255, pyint (255 * (value - 33/100) / (34/100)), 0)
  else (255, 255, pyint (255 * (value - 67/100) / (33/100)))

/-- Embeds `MeshDataProcessor._cool_color` as an `(r, g, b)` triple. -/
def cool_color (value : ℚ) : ℤ × ℤ × ℤ :=
  (pyint (255 * value), 255, 255 - pyint (255 * value))

/-- Embeds `MeshDataProcessor.generate_color_map`: normalize the energies
to `[0, 1]` (all `1/2` when max = min) and map each through the selected
color scheme. -/
def generate_color_map (energies : List ℚ) (scheme : String) : List (ℤ × ℤ × ℤ) :=
  match energies with
  | [] => []
  | e0 :: rest =>
    let es := e0 :: rest
    let e_min := es.foldl min e0
    let e_max := es.foldl max e0
    let normalized := es.map (fun e =>
      if e_max = e_min then 1/2 else (e - e_min) / (e_max - e_min))
    normalized.map (fun v =>
      if scheme = "viridis" then viridis_color v
      else if scheme = "hot" then hot_color v
      else if scheme = "cool" then cool_color v
      else viridis_color v)

/-! ## RotationOptimizer (src/backend/core/optimizers/rotation_optimizer.py) -/

/-- The angle sweep `np.arange(0, 360, rotation_step)` of
`RotationOptimizer._optimize_sphere_rotation`, for an integer step:
the multiples of `step` below `360`, i.e. `ceil (360 / step)` many angles. -/
def sphereAngles (step : ℕ) : List ℕ :=
  (List.range ((360 + step - 1) / step)).map (fun i => i * step)

/-- The enumeration order of the orientation trials of
`RotationOptimizer._optimize_sphere_rotation`: axes outer loop (indices into
the Fibonacci-sphere axis list), angles inner loop.  A trial is the pair
(axis index, angle in degrees). -/
def sphereTrials (count step : ℕ) : List (ℕ × ℕ) :=
  (List.range count).flatMap (fun a => (sphereAngles step).map (fun θ => (a, θ)))

/-- The selection loop of `_optimize_sphere_rotation`: starting from
`best_energy = +inf, best = None`, each trial is evaluated once and replaces
the incumbent exactly when its energy is strictly smaller.  `E` is the
black-box surrogate-energy oracle evaluated on the trial's rotated system
(`τ` is the trial type; energies live in any linear order, modelling float
comparisons). -/
def bestLoop {τ α : Type} [LinearOrder α] (E : τ → α) :
    Option (τ × α) → List τ → Option (τ × α)
  | best, [] => best
  | best, t :: ts =>
    let e := E t
    let better : Bool :=
      match best with
      | none => true
      | some (_, e0) => decide (e < e0)
    bestLoop E (if better then some (t, e) else best) ts

/-- Embeds `RotationOptimizer._optimize_sphere_rotation` (sphere strategy):
run the selection loop over all (axis, angle) trials.  The rotated systems
and the Fibonacci-sphere axis directions (trigonometric, hence not rational)
are absorbed into the oracle `E`, indexed by (axis index, angle). -/
def optimize_sphere_rotation {α : Type} [LinearOrder α]
    (E : ℕ → ℕ → α) (count step : ℕ) : Option ((ℕ × ℕ) × α) :=
  bestLoop (fun t => E t.1 t.2) none (sphereTrials count step)

/-- The numpy fancy-index assignment
`positions[adsorbate_indices] = new_positions` used by both rotation
helpers: write `news` at the index list `idx`, pairwise, left to right. -/
def updatePositions (positions : List V3) (idx : List ℕ) (news : List V3) : List V3 :=
  (idx.zip news).foldl (fun ps p => ps.set p.1 p.2) positions

/-- Embeds `RotationOptimizer._get_rotated_system`: copy the system, read the
adsorbate positions at `idx`, apply the rotation, and write the rotated
positions back at `idx`.  The scipy rotation about the adsorbate's center of
mass (`rot.apply(pos - center) + center`) is abstracted as the map `rot`,
since its matrix entries are trigonometric; every claim below is independent
of the concrete map. -/
def get_rotated_system (rot : V3 → V3) (positions : List V3) (idx : List ℕ) : List V3 :=
  updatePositions positions idx ((idx.map (fun i => positions.getD i 0)).map rot)

/-- Embeds `RotationOptimizer._get_rotated_system_normal` (normal strategy):
identical write-back structure, with the rotation about the surface normal
through the adsorbate center of mass abstracted as `rotDeg angle`. -/
def get_rotated_system_normal (rotDeg : ℚ → V3 → V3) (angle : ℚ)
    (positions : List V3) (idx : List ℕ) : List V3 :=
  updatePositions positions idx ((idx.map (fun i => positions.getD i 0)).map (rotDeg angle))

/-! ## EnergyInterpolator (src/backend/core/surface_mesh/energy_interpolation.py) -/

/-- One update of the adjacency table for one triangle `(a, b, c)`:
`adjacency[a] |= {b, c}`, `adjacency[b] |= {a, c}`, `adjacency[c] |= {a, b}`,
as in the adjacency-building loop of `EnergyInterpolator.smooth_energies`. -/
def addTriangle (adj : ℕ → Finset ℕ) (t : ℕ × ℕ × ℕ) : ℕ → Finset ℕ :=
  fun i =>
    let s1 := if i = t.1 then adj i ∪ {t.2.1, t.2.2} else adj i
    let s2 := if i = t.2.1 then s1 ∪ {t.1, t.2.2} else s1
    if i = t.2.2 then s2 ∪ {t.1, t.2.1} else s2

/-- The triangle-adjacency sets of `smooth_energies` (vertex index to set of
neighbouring vertex indices). -/
def adjacency (triangles : List (ℕ × ℕ × ℕ)) : ℕ → Finset ℕ :=
  triangles.foldl addTriangle (fun _ => ∅)

/-- One Laplacian smoothing iteration of `smooth_energies`: a fresh array is
produced from the previous one (`new_energies` vs `smoothed` in the source),
so all reads within an iteration see the previous iteration's values; a
vertex with at least one neighbour becomes the average of its own old value
and the mean of its neighbours' old values, and a vertex with no neighbours
is left unchanged. -/
def smoothIteration (triangles : List (ℕ × ℕ × ℕ)) (vals : List ℚ) : List ℚ :=
  (List.range vals.length).map (fun i =>
    let adj := adjacency triangles i
    if adj.card ≠ 0 then
      (vals.getD i 0 + (∑ j in adj, vals.getD j 0) / (adj.card : ℚ)) / 2
    else vals.getD i 0)

/-- Embeds `EnergyInterpolator.smooth_energies`: `iterations` rounds of the
synchronous Laplacian iteration, starting from a copy of the input. -/
def smooth_energies (energies : List ℚ) (triangles : List (ℕ × ℕ × ℕ)) :
    ℕ → List ℚ
  | 0 => energies
  | n + 1 => smoothIteration triangles (smooth_energies energies triangles n)

/-! ## DelaunayTriangulator (src/backend/core/surface_mesh/delaunay_triangulation.py) -/

/-- Twice the signed area of the 2D triangle `a b c` (orientation test). -/
def orient2 (a b c : V2) : ℚ :=
  (b.1 - a.1) * (c.2 - a.2) - (b.2 - a.2) * (c.1 - a.1)

/-- `true` when every triple of input points is collinear, i.e. the point
set is degenerate for triangulation (qhull rejects such input). -/
def collinearAll (pts : List V2) : Bool :=
  pts.all (fun a => pts.all (fun b => pts.all (fun c => decide (orient2 a b c = 0))))

/-- The in-circumcircle determinant for triangle `a b c` and query point
`p` (the lifted-paraboloid 3x3 determinant); for a positively oriented
triangle it is positive exactly when `p` is strictly inside the
circumcircle. -/
def circumDet (a b c p : V2) : ℚ :=
  let ax := a.1 - p.1; let ay := a.2 - p.2
  let bx := b.1 - p.1; let by' := b.2 - p.2
  let cx := c.1 - p.1; let cy := c.2 - p.2
  (ax * ax + ay * ay) * (bx * cy - cx * by') -
  (bx * bx + by' * by') * (ax * cy - cx * ay) +
  (cx * cx + cy * cy) * (ax * by' - bx * ay)

/-- All index triples `(i, j, k)` with each component below `n`. -/
def allTriples (n : ℕ) : List (ℕ × ℕ × ℕ) :=
  (List.range n).flatMap (fun i =>
    (List.range n).flatMap (fun j =>
      (List.range n).map (fun k => (i, j, k))))

/-- Whether the triangle with vertex indices `t` of `pts` is a Delaunay
triangle: non-degenerate and with no input point strictly inside its
circumcircle. -/
def isDelaunayTriangle (pts : List V2) (t : ℕ × ℕ × ℕ) : Bool :=
  let a := pts.getD t.1 0; let b := pts.getD t.2.1 0; let c := pts.getD t.2.2 0
  decide (orient2 a b c ≠ 0) &&
  pts.all (fun p => decide (orient2 a b c * circumDet a b c p ≤ 0))

/-- Modelled from the spec: the call `scipy.spatial.Delaunay(points)` is an
external library routine; the spec describes it as computing "a Delaunay
triangulation of the 2D point set".  We model its simplex list as the list
of all index triples `i < j < k` that satisfy the empty-circumcircle
Delaunay property. -/
def scipyDelaunay (pts : List V2) : List (ℕ × ℕ × ℕ) :=
  (allTriples pts.length).filter (fun t =>
    decide (t.1 < t.2.1) && decide (t.2.1 < t.2.2) && isDelaunayTriangle pts t)

/-- Embeds `DelaunayTriangulator.triangulate_2d`: fewer than 3 points is
rejected up front (the spec's `GeometryError`, a `ValueError` in the
source); a fully collinear point set makes the external qhull call fail
(modelled as the second error case); otherwise the triangulation simplices
are returned. -/
def triangulate_2d (pts : List V2) : Except String (List (ℕ × ℕ × ℕ)) :=
  if pts.length < 3 then .error "Need at least 3 points for triangulation"
  else if collinearAll pts then .error "QhullError: degenerate input"
  else .ok (scipyDelaunay pts)

/-! ## EnergyInterpolator.interpolate_to_vertices -/

/-- Barycentric linear interpolation of the values `ea, eb, ec` given at the
triangle corners `a, b, c`, evaluated at `v` (inside the triangle). -/
def baryValue (a b c : V2) (ea eb ec : ℚ) (v : V2) : ℚ :=
  let d := orient2 a b c
  (orient2 v b c / d) * ea + (orient2 a v c / d) * eb + (orient2 a b v / d) * ec

/-- Whether `v` lies in the (closed) triangle `a b c`, for a non-degenerate
triangle: all three barycentric coordinates are non-negative. -/
def triContains (a b c v : V2) : Bool :=
  let d := orient2 a b c
  decide (d ≠ 0) &&
  decide (0 ≤ orient2 v b c / d) &&
  decide (0 ≤ orient2 a v c / d) &&
  decide (0 ≤ orient2 a b v / d)

/-- Modelled from the spec: `scipy.interpolate.griddata(..., method='linear',
fill_value=nan)` is an external routine; the spec describes it as "linear
barycentric interpolation over the sites' own triangulation domain" that
leaves NaN at "any vertex that falls outside the sites' convex hull".  We
model it as: find the first non-degenerate site triangle (indices
`i < j < k` in lexicographic order) containing the vertex and return the
barycentric interpolant there; `none` (NaN) when no triangle contains it. -/
def griddataLinear (sites : List V2) (energies : List ℚ) (v : V2) : Option ℚ :=
  match (allTriples sites.length).find? (fun t =>
      decide (t.1 < t.2.1) && decide (t.2.1 < t.2.2) &&
      triContains (sites.getD t.1 0) (sites.getD t.2.1 0) (sites.getD t.2.2 0) v) with
  | none => none
  | some t => some (baryValue (sites.getD t.1 0) (sites.getD t.2.1 0) (sites.getD t.2.2 0)
      (energies.getD t.1 0) (energies.getD t.2.1 0) (energies.getD t.2.2 0) v)

/-- The vertex `v` lies in some non-degenerate triangle of site points;
this is the hull-membership test that decides whether the linear
interpolant is defined at `v`. -/
def insideHull (sites : List V2) (v : V2) : Prop :=
  ∃ t ∈ allTriples sites.length,
    (decide (t.1 < t.2.1) && decide (t.2.1 < t.2.2) &&
      triContains (sites.getD t.1 0) (sites.getD t.2.1 0) (sites.getD t.2.2 0) v) = true

instance (sites : List V2) (v : V2) : Decidable (insideHull sites v) := by
  unfold insideHull; infer_instance

/-- Modelled from the spec: `griddata(..., method='nearest')` returns, at
every query point, the energy of the nearest site (scipy resolves distance
ties deterministically; we take the first site in input order, which no
claim depends on). -/
def griddataNearest (sites : List V2) (energies : List ℚ) (v : V2) : ℚ :=
  match (List.range sites.length).map (fun i => (distSq2 (sites.getD i 0) v, i)) with
  | [] => 0
  | p :: ps => energies.getD (ps.foldl (fun b q => if q.1 < b.1 then q else b) p).2 0

/-- Embeds `EnergyInterpolator.interpolate_to_vertices` (for 2D inputs; 3D
inputs are first projected by dropping the third column, which the claims
take as already done): fewer than 3 sites raises; otherwise every vertex
gets the linear interpolant, and the NaN entries (vertices outside the
sites' hull) are replaced by the nearest-site energies, exactly as the
source's `np.where(np.isnan(interpolated), nearest, interpolated)`. -/
def interpolate_to_vertices (sites : List V2) (energies : List ℚ) (verts : List V2) :
    Except String (List ℚ) :=
  if sites.length < 3 then .error "Need at least 3 sites for interpolation"
  else .ok (verts.map (fun v =>
    match griddataLinear sites energies v with
    | some e => e
    | none => griddataNearest sites energies v))

/-! ## Site finders (src/backend/core/site_finder/) -/

/-- An adsorption-site record as returned by the finders: position, surface
normal and site type, the dictionary
`{'site': ..., 'normal': ..., 'type': ...}` of the source. -/
structure AdsSite where
  site : V3
  normal : V3
  type : String
deriving DecidableEq

/-- Embeds `BaseSiteFinder.get_surface_normal`: the axis-aligned outward
vector, `-1` on the surface axis when placing on the bottom surface and
`+1` otherwise. -/
def get_surface_normal (surface_axis : Fin 3) (place_on_bottom : Bool) : V3 :=
  let s : ℚ := if place_on_bottom then -1 else 1
  if surface_axis.val = 0 then (s, 0, 0)
  else if surface_axis.val = 1 then (0, s, 0)
  else (0, 0, s)

/-- The 2D projection `surface_atoms_coords[:, plane_axes]` where
`plane_axes` are the two axes other than `surface_axis`, in increasing
order. -/
def projectPlane (surface_axis : Fin 3) (p : V3) : V2 :=
  if surface_axis.val = 0 then (p.2.1, p.2.2)
  else if surface_axis.val = 1 then (p.1, p.2.2)
  else (p.1, p.2.1)

/-- Embeds `HollowSiteFinder._calculate_cluster_normal`.  When clustering is
meaningful (`knn_neighbors >= 2` and more than 2 cluster atoms) the normal
is the cross product of two edge vectors, flipped so that its dot product
with the nominal outward direction is non-negative; otherwise the outward
direction itself is used.  The source divides the cross product by its
Euclidean norm, a strictly positive scalar; we keep the unnormalized
direction because the norm is irrational in general and no claim depends on
the scaling.  The guard `norm > 1e-6` is rendered exactly as
`normSq > (1e-6)^2`. -/
def calculate_cluster_normal (knn_neighbors : ℕ) (cluster : List V3)
    (default_normal : V3) : V3 :=
  if 2 ≤ knn_neighbors ∧ 2 < cluster.length then
    let v1 := cluster.getD 0 0
    let v2 := cluster.getD 1 0
    let v3 := cluster.getD 2 0
    let cp := cross (v2 - v1) (v3 - v1)
    if (1/1000000 : ℚ) ^ 2 < normSq cp then
      if dot cp default_normal < 0 then -cp else cp
    else default_normal
  else default_normal

/-- Modelled from the spec: `scipy.spatial.KDTree(coords_2d).query(..., k)`
is an external spatial index; the spec describes it as querying each atom's
`k` nearest neighbours in the 2D projection.  We model the query for point
`i` as the first `k + 1` indices (the point itself is its own nearest
neighbour at distance 0) ordered by squared 2D distance to point `i`, ties
by index (scipy's tie order is unspecified; no claim depends on it). -/
def knnIndices (coords2 : List V2) (knn_neighbors : ℕ) (i : ℕ) : List ℕ :=
  ((List.range coords2.length).insertionSort (fun a b =>
      distSq2 (coords2.getD a 0) (coords2.getD i 0) < distSq2 (coords2.getD b 0) (coords2.getD i 0)
      ∨ (distSq2 (coords2.getD a 0) (coords2.getD i 0) = distSq2 (coords2.getD b 0) (coords2.getD i 0)
          ∧ a ≤ b))).take (knn_neighbors + 1)

/-- `np.mean(cluster_atoms, axis=0)`: the centroid of a list of 3-vectors. -/
def centroid (l : List V3) : V3 :=
  let s := l.foldl (· + ·) (0 : V3)
  (s.1 / l.length, s.2.1 / l.length, s.2.2 / l.length)

/-- The loop body of `HollowSiteFinder._deduplicate_sites`: candidates are
examined in discovery order against the running accepted list, and a
candidate is dropped exactly when its Euclidean distance to some
already-accepted site is below the threshold (`normLt` renders the float
comparison `np.linalg.norm(...) < deduplication_distance` exactly). -/
def dedupLoop (d : ℚ) (acc : List AdsSite) : List AdsSite → List AdsSite
  | [] => acc
  | s :: ss =>
    if acc.any (fun u => decide (normLt (s.site - u.site) d)) then dedupLoop d acc ss
    else dedupLoop d (acc ++ [s]) ss

/-- Embeds `HollowSiteFinder._deduplicate_sites`: the first candidate is
always accepted, the rest are filtered by `dedupLoop`. -/
def deduplicate_sites (d : ℚ) (sites : List AdsSite) : List AdsSite :=
  match sites with
  | [] => []
  | s :: ss => dedupLoop d [s] ss

/-- Embeds `HollowSiteFinder.find_sites`: with fewer than
`knn_neighbors + 1` surface atoms the result is empty; otherwise every atom
contributes one candidate (the 3D centroid of its KNN cluster, with the
cluster normal), and the candidates are deduplicated in discovery order. -/
def hollow_find_sites (knn_neighbors : ℕ) (deduplication_distance : ℚ)
    (surface_axis : Fin 3) (place_on_bottom : Bool)
    (surface_atoms_coords : List V3) : List AdsSite :=
  if surface_atoms_coords.length < knn_neighbors + 1 then []
  else
    let coords2 := surface_atoms_coords.map (projectPlane surface_axis)
    let away := get_surface_normal surface_axis place_on_bottom
    let potential := (List.range surface_atoms_coords.length).map (fun i =>
      let cluster := (knnIndices coords2 knn_neighbors i).map
        (fun j => surface_atoms_coords.getD j 0)
      { site := centroid cluster
        normal := calculate_cluster_normal knn_neighbors cluster away
        type := "Hollow" : AdsSite })
    deduplicate_sites deduplication_distance potential

/-- Embeds `OnTopSiteFinder.find_sites`: one site per surface-atom index
whose slab atom has the target species, at that atom's position, with the
axis-aligned outward normal; order follows `surface_atoms_indices`.  The
slab is the list of (species, position) pairs of the ASE Atoms object. -/
def ontop_find_sites (target_atom : String) (surface_axis : Fin 3)
    (place_on_bottom : Bool) (surface_atoms_indices : List ℕ)
    (slab : List (String × V3)) : List AdsSite :=
  let normal := get_surface_normal surface_axis place_on_bottom
  surface_atoms_indices.filterMap (fun idx =>
    let atom := slab.getD idx ("", 0)
    if atom.1 = target_atom then
      some { site := atom.2, normal := normal, type := "On-Top" }
    else none)

/-! ## Workflow result handling (src/backend/core/workflow.py) -/

/-- The per-site result record built by
`SurfaceAdsorptionWorkflow._place_and_optimize_adsorbate` (the fields the
ranking and persistence steps read). -/
structure ResultInfo where
  adsorption_energy : ℚ
  site_type : String
  surface_site_coordinates : V3
  site_index : ℕ
deriving DecidableEq

/-- Python `round` to the nearest integer, half to even (banker's
rounding), on exact rationals. -/
def pyRoundInt (q : ℚ) : ℤ :=
  let n := ⌊q⌋
  let f := q - n
  if f < 1/2 then n
  else if 1/2 < f then n + 1
  else if n % 2 = 0 then n else n + 1

/-- Python `round(x, 4)` on exact rationals. -/
def pyRound4 (q : ℚ) : ℚ := (pyRoundInt (q * 10000) : ℚ) / 10000

/-- Embeds the `sites` list assembled by
`SurfaceAdsorptionWorkflow._create_visualization_data` and persisted to
`adsorption_sites.json`: one `(position, energy, type)` entry per result,
in the order of the `results` list (energies rounded to 4 decimals). -/
def create_visualization_data (results : List ResultInfo) : List (V3 × ℚ × String) :=
  results.map (fun r =>
    (r.surface_site_coordinates, pyRound4 r.adsorption_energy, r.site_type))

/-- Embeds `sorted(results, key=lambda x: x['adsorption_energy'])` from
`SurfaceAdsorptionWorkflow._save_summary`.  Python's `sorted` is a stable
sort by the key; insertion sort with the non-strict key comparison computes
the same list as any stable sort. -/
def save_summary_sorted (results : List ResultInfo) : List ResultInfo :=
  results.insertionSort (fun a b => a.adsorption_energy ≤ b.adsorption_energy)

/-! ## Theorems -/

/-- The selection loop started on a concrete incumbent equals the loop
started empty on the incumbent's trial consed in front. -/
theorem bestLoop_some_eq_none_cons {τ α : Type} [LinearOrder α] (E : τ → α)
    (b : τ) (l : List τ) :
    bestLoop E (some (b, E b)) l = bestLoop E none (b :: l) := by
  simp [bestLoop]

/-- Master lemma for the sphere-strategy selection loop: started on the
incumbent `b`, it returns the first trial of `b :: l` attaining the minimum
energy; every strictly earlier trial has strictly larger energy and every
trial of `b :: l` has at least the returned energy. -/
theorem bestLoop_spec {τ α : Type} [LinearOrder α] (E : τ → α) :
    ∀ (l : List τ) (b : τ), ∃ t l1 l2,
      bestLoop E (some (b, E b)) l = some (t, E t) ∧
      b :: l = l1 ++ t :: l2 ∧
      (∀ u ∈ l1, E t < E u) ∧
      (∀ u ∈ b :: l, E t ≤ E u) := by
  intro l
  induction l with
  | nil =>
    intro b
    exact ⟨b, [], [], by simp [bestLoop], by simp, by simp, by simp⟩
  | cons x xs ih =>
    intro b
    by_cases h : E x < E b
    · obtain ⟨t, l1, l2, hres, hdec, hlt, hle⟩ := ih x
      refine ⟨t, b :: l1, l2, ?_, ?_, ?_, ?_⟩
      · simpa [bestLoop, h] using hres
      · simpa using congrArg (List.cons b) hdec
      · intro u hu
        rcases List.mem_cons.mp hu with rfl | hu
        · exact lt_of_le_of_lt (hle x (by simp)) h
        · exact hlt u hu
      · intro u hu
        rcases List.mem_cons.mp hu with rfl | hu
        · exact le_of_lt (lt_of_le_of_lt (hle x (by simp)) h)
        · exact hle u hu
    · obtain ⟨t, l1, l2, hres, hdec, hlt, hle⟩ := ih b
      have hbx : E b ≤ E x := le_of_not_lt h
      have hres' : bestLoop E (some (b, E b)) (x :: xs) = some (t, E t) := by
        simpa [bestLoop, h] using hres
      cases l1 with
      | nil =>
        simp only [List.nil_append, List.cons_eq_cons] at hdec
        obtain ⟨rfl, rfl⟩ := hdec
        refine ⟨b, [], x :: xs, hres', by simp, by simp, ?_⟩
        intro u hu
        rcases List.mem_cons.mp hu with rfl | hu
        · exact le_refl _
        · rcases List.mem_cons.mp hu with rfl | hu
          · exact hbx
          · exact hle u (List.mem_cons_of_mem _ hu)
      | cons c m =>
        simp only [List.cons_append, List.cons_eq_cons] at hdec
        obtain ⟨rfl, hxs⟩ := hdec
        have hbmem : E t < E b := hlt b (List.mem_cons_self _ _)
        refine ⟨t, b :: x :: m, l2, hres', ?_, ?_, ?_⟩
        · simp [hxs]
        · intro u hu
          rcases List.mem_cons.mp hu with rfl | hu
          · exact hbmem
          · rcases List.mem_cons.mp hu with rfl | hu
            · exact lt_of_lt_of_le hbmem hbx
            · exact hlt u (List.mem_cons_of_mem _ hu)
        · intro u hu
          rcases List.mem_cons.mp hu with rfl | hu
          · exact le_of_lt hbmem
          · rcases List.mem_cons.mp hu with rfl | hu
            · exact le_of_lt (lt_of_lt_of_le hbmem hbx)
            · exact hle u (List.mem_cons_of_mem _ hu)

/-- The number of sphere-strategy trials is
`rotation_count * ceil (360 / rotation_step)`. -/
theorem sphereTrials_length (count step : ℕ) :
    (sphereTrials count step).length = count * ((360 + step - 1) / step) := by
  simp only [sphereTrials, List.length_flatMap, Function.comp_def, List.length_map,
    sphereAngles, List.length_range]
  rw [List.map_const', List.sum_replicate, smul_eq_mul, List.length_range]

/-- The identity trial (first axis, angle 0) is among the sphere trials as
soon as there is at least one axis and a positive step. -/
theorem zero_trial_mem (count step : ℕ) (hc : 0 < count) (hs : 0 < step) :
    ((0, 0) : ℕ × ℕ) ∈ sphereTrials count step := by
  simp only [sphereTrials, List.mem_flatMap]
  refine ⟨0, by simpa using hc, ?_⟩
  simp only [List.mem_map, sphereAngles]
  refine ⟨0, ⟨0, ?_, by simp⟩, rfl⟩
  have h1 : step ≤ 360 + step - 1 := by omega
  simpa using Nat.one_le_div_iff hs |>.mpr h1

/-- C3: for every oracle, the sphere strategy of `RotationOptimizer`
evaluates exactly `rotation_count * ceil (360 / rotation_step)` orientation
trials, returns the strict minimum energy over all trials with ties broken
by the first-encountered trial in enumeration order (axes outer loop,
angles inner loop), and the returned energy is at most the energy of the
angle-0 trial on the first generated axis. -/
theorem sphere_rotation_spec {α : Type} [LinearOrder α] (E : ℕ → ℕ → α)
    (count step : ℕ) (hc : 0 < count) (hs : 0 < step) :
    (sphereTrials count step).length = count * ((360 + step - 1) / step) ∧
    ∃ t l1 l2,
      optimize_sphere_rotation E count step = some (t, E t.1 t.2) ∧
      sphereTrials count step = l1 ++ t :: l2 ∧
      (∀ u ∈ l1, E t.1 t.2 < E u.1 u.2) ∧
      (∀ u ∈ sphereTrials count step, E t.1 t.2 ≤ E u.1 u.2) ∧
      E t.1 t.2 ≤ E 0 0 := by
  refine ⟨sphereTrials_length count step, ?_⟩
  have hmem := zero_trial_mem count step hc hs
  obtain ⟨b, l, hbl⟩ : ∃ b l, sphereTrials count step = b :: l := by
    cases hlist : sphereTrials count step with
    | nil => rw [hlist] at hmem; simp at hmem
    | cons b l => exact ⟨b, l, rfl⟩
  obtain ⟨t, l1, l2, hres, hdec, hlt, hle⟩ := bestLoop_spec (fun t : ℕ × ℕ => E t.1 t.2) l b
  refine ⟨t, l1, l2, ?_, by rw [hbl]; exact hdec, hlt, ?_, ?_⟩
  · unfold optimize_sphere_rotation
    rw [hbl, ← bestLoop_some_eq_none_cons]
    exact hres
  · intro u hu
    exact hle u (by rwa [← hbl])
  · exact hle (0, 0) (by rwa [← hbl])

/-- Witness for C3 at the spec's end-to-end scenario
(`rotation_count = 10`, `rotation_step = 90`): exactly 40 trials. -/
theorem sphere_rotation_spec_witness :
    (sphereTrials 10 90).length = 10 * ((360 + 90 - 1) / 90) ∧
    10 * ((360 + 90 - 1) / 90) = 40 :=
  ⟨(sphere_rotation_spec (fun a θ => ((a + θ : ℤ))) 10 90 (by decide) (by decide)).1,
   by decide⟩

/-- C2: evaluation of the default color scheme at `energies = [0, 1]`.  The
minimum-energy vertex receives `(255, 0, 0)` (`"#ff0000"`, red) and the
maximum-energy vertex receives `(255, 255, 0)` (`"#ffff00"`, yellow), not
green and red as documented: the code contradicts its own docstring
("Lower energy (favorable) = green, higher energy (unfavorable) = red"). -/
theorem color_map_min_red_max_yellow :
    generate_color_map [0, 1] "viridis" = [(255, 0, 0), (255, 255, 0)] ∧
    ((255, 0, 0) : ℤ × ℤ × ℤ) ≠ (0, 255, 0) ∧
    ((255, 255, 0) : ℤ × ℤ × ℤ) ≠ (255, 0, 0) := by
  refine ⟨?_, by decide, by decide⟩
  norm_num [generate_color_map, viridis_color, pyint]

/-- A fold of pairwise writes leaves every position whose index is written
by none of the pairs unchanged, and preserves the length. -/
theorem foldl_set_untouched (j : ℕ) :
    ∀ (l : List (ℕ × V3)) (ps : List V3), (∀ p ∈ l, p.1 ≠ j) →
      (l.foldl (fun ps p => ps.set p.1 p.2) ps).length = ps.length ∧
      (l.foldl (fun ps p => ps.set p.1 p.2) ps)[j]? = ps[j]? := by
  intro l
  induction l with
  | nil => intro ps _; exact ⟨rfl, rfl⟩
  | cons p l ih =>
    intro ps hp
    have hrec := ih (ps.set p.1 p.2) (fun q hq => hp q (List.mem_cons_of_mem _ hq))
    refine ⟨?_, ?_⟩
    · simpa [List.length_set] using hrec.1
    · rw [List.foldl_cons, hrec.2, List.getElem?_set_ne (hp p (List.mem_cons_self _ _))]

/-- C9: both rotation helpers of `RotationOptimizer` return a system in
which every atom outside `adsorbate_indices` keeps exactly its input
position (and the atom count is unchanged); the input position list itself
is a value and is never mutated, so only adsorbate positions differ. -/
theorem rotation_moves_only_adsorbate (rot : V3 → V3) (rotDeg : ℚ → V3 → V3)
    (angle : ℚ) (positions : List V3) (idx : List ℕ) (j : ℕ) (hj : j ∉ idx) :
    (get_rotated_system rot positions idx).length = positions.length ∧
    (get_rotated_system rot positions idx)[j]? = positions[j]? ∧
    (get_rotated_system_normal rotDeg angle positions idx).length = positions.length ∧
    (get_rotated_system_normal rotDeg angle positions idx)[j]? = positions[j]? := by
  have key : ∀ news : List V3,
      (updatePositions positions idx news).length = positions.length ∧
      (updatePositions positions idx news)[j]? = positions[j]? := by
    intro news
    refine foldl_set_untouched j (idx.zip news) positions ?_
    intro p hp
    intro hcontra
    exact hj (hcontra ▸ (List.of_mem_zip hp).1)
  exact ⟨(key _).1, (key _).2, (key _).1, (key _).2⟩

/-- Witness for C9: a two-atom system whose second atom is the adsorbate;
the first atom's position survives a translation of the adsorbate. -/
theorem rotation_moves_only_adsorbate_witness :
    (get_rotated_system (fun v => v + (1, 0, 0)) [((0 : ℚ), (0 : ℚ), (0 : ℚ)), (1, 1, 1)] [1])[0]? =
      ([((0 : ℚ), (0 : ℚ), (0 : ℚ)), (1, 1, 1)] : List V3)[0]? :=
  (rotation_moves_only_adsorbate (fun v => v + (1, 0, 0)) (fun _ v => v) 0
    [((0 : ℚ), (0 : ℚ), (0 : ℚ)), (1, 1, 1)] [1] 0 (by decide)).2.1

/-- C8: Laplacian smoothing with 0 iterations returns the input energies
exactly; running `k` iterations and then 0 further iterations equals
stopping after `k`; and each iteration is computed synchronously from the
previous iteration's values, replacing every vertex that has at least one
neighbour by the average of its old value and the mean of its neighbours'
old values. -/
theorem smoothing_spec (E : List ℚ) (T : List (ℕ × ℕ × ℕ)) (k : ℕ) :
    smooth_energies E T 0 = E ∧
    smooth_energies (smooth_energies E T k) T 0 = smooth_energies E T k ∧
    smooth_energies E T (k + 1) = smoothIteration T (smooth_energies E T k) ∧
    ∀ i < (smooth_energies E T k).length, (adjacency T i).card ≠ 0 →
      (smooth_energies E T (k + 1)).getD i 0 =
        ((smooth_energies E T k).getD i 0 +
          (∑ j in adjacency T i, (smooth_energies E T k).getD j 0) /
            ((adjacency T i).card : ℚ)) / 2 := by
  refine ⟨rfl, rfl, rfl, ?_⟩
  intro i hi hadj
  show (smoothIteration T (smooth_energies E T k)).getD i 0 = _
  unfold smoothIteration
  rw [List.getD_eq_getElem?_getD, List.getElem?_map, List.getElem?_range hi]
  simp [hadj]
  intro h
  exact absurd (by simp [h] : (adjacency T i).card = 0) hadj

/-- Witness for C8 on the triangle mesh `[(0,1,2)]` with energies
`[0, 6, 0]`: vertex 0 has neighbours `{1, 2}`, and one smoothing iteration
replaces its value by the prescribed synchronous average. -/
theorem smoothing_spec_witness :
    (smooth_energies [0, 6, 0] [(0, 1, 2)] (0 + 1)).getD 0 0 =
      ((smooth_energies [0, 6, 0] [(0, 1, 2)] 0).getD 0 0 +
        (∑ j in adjacency [(0, 1, 2)] 0, (smooth_energies [0, 6, 0] [(0, 1, 2)] 0).getD j 0) /
          ((adjacency [(0, 1, 2)] 0).card : ℚ)) / 2 :=
  (smoothing_spec [0, 6, 0] [(0, 1, 2)] 0).2.2.2 0 (by decide) (by decide)

/-- Every member of `allTriples n` has all three components below `n`. -/
theorem mem_allTriples {n : ℕ} {t : ℕ × ℕ × ℕ} (h : t ∈ allTriples n) :
    t.1 < n ∧ t.2.1 < n ∧ t.2.2 < n := by
  simp only [allTriples, List.mem_flatMap, List.mem_map, List.mem_range] at h
  obtain ⟨i, hi, j, hj, k, hk, rfl⟩ := h
  exact ⟨hi, hj, hk⟩

/-- C4: triangulating a 2D point set with fewer than 3 points fails with
the spec's `GeometryError` (a `ValueError` in the source); with at least 3
points that are not all collinear it succeeds, and every index of every
returned triangle is a valid point index, i.e. lies in `[0, N)`. -/
theorem triangulate_2d_spec (pts : List V2) :
    (pts.length < 3 →
      triangulate_2d pts = .error "Need at least 3 points for triangulation") ∧
    (3 ≤ pts.length → collinearAll pts = false →
      triangulate_2d pts = .ok (scipyDelaunay pts) ∧
      ∀ t ∈ scipyDelaunay pts,
        t.1 < pts.length ∧ t.2.1 < pts.length ∧ t.2.2 < pts.length) := by
  constructor
  · intro h
    simp [triangulate_2d, h]
  · intro h3 hcol
    have hn : ¬ pts.length < 3 := not_lt.mpr h3
    refine ⟨by simp [triangulate_2d, hn, hcol], ?_⟩
    intro t ht
    exact mem_allTriples (List.mem_of_mem_filter ht)

/-- Witness for C4: the right triangle `(0,0), (1,0), (0,1)` triangulates
successfully. -/
theorem triangulate_2d_spec_witness :
    triangulate_2d [((0 : ℚ), (0 : ℚ)), (1, 0), (0, 1)] =
      .ok (scipyDelaunay [((0 : ℚ), (0 : ℚ)), (1, 0), (0, 1)]) ∧
    ¬ ([((0 : ℚ), (0 : ℚ)), (1, 0), (0, 1)] : List V2).length < 3 :=
  ⟨((triangulate_2d_spec [((0 : ℚ), (0 : ℚ)), (1, 0), (0, 1)]).2 (by decide)
      (by norm_num [collinearAll, orient2])).1,
   by decide⟩

/-- C7: with at least 3 sites, `interpolate_to_vertices` succeeds and
assigns a (never-NaN) energy to every vertex: a vertex lying in some
non-degenerate triangle of sites — i.e. inside the sites' convex hull —
gets the linear barycentric interpolant, and every other vertex gets the
nearest site's energy. -/
theorem interpolate_to_vertices_spec (sites : List V2) (energies : List ℚ)
    (verts : List V2) (h3 : 3 ≤ sites.length) :
    interpolate_to_vertices sites energies verts =
      .ok (verts.map (fun v =>
        match griddataLinear sites energies v with
        | some e => e
        | none => griddataNearest sites energies v)) ∧
    ∃ out, interpolate_to_vertices sites energies verts = .ok out ∧
      out.length = verts.length ∧
      ∀ i, i < verts.length →
        (insideHull sites (verts.getD i 0) →
          ∃ e, griddataLinear sites energies (verts.getD i 0) = some e ∧
            out.getD i 0 = e) ∧
        (¬ insideHull sites (verts.getD i 0) →
          griddataLinear sites energies (verts.getD i 0) = none ∧
          out.getD i 0 = griddataNearest sites energies (verts.getD i 0)) := by
  have hn : ¬ sites.length < 3 := not_lt.mpr h3
  have hok : interpolate_to_vertices sites energies verts =
      .ok (verts.map (fun v =>
        match griddataLinear sites energies v with
        | some e => e
        | none => griddataNearest sites energies v)) := by
    simp [interpolate_to_vertices, hn]
  refine ⟨hok, _, hok, by simp, ?_⟩
  intro i hi
  have hv : (verts.map (fun v =>
      match griddataLinear sites energies v with
      | some e => e
      | none => griddataNearest sites energies v)).getD i 0 =
      match griddataLinear sites energies (verts.getD i 0) with
      | some e => e
      | none => griddataNearest sites energies (verts.getD i 0) := by
    rw [List.getD_eq_getElem?_getD, List.getElem?_map]
    rw [(List.getElem?_eq_getElem hi : verts[i]? = some verts[i])]
    rw [List.getD_eq_getElem?_getD, (List.getElem?_eq_getElem hi : verts[i]? = some verts[i])]
    rfl
  have hiff : (griddataLinear sites energies (verts.getD i 0)).isSome ↔
      insideHull sites (verts.getD i 0) := by
    unfold griddataLinear insideHull
    cases hfind : (allTriples sites.length).find? (fun t =>
        decide (t.1 < t.2.1) && decide (t.2.1 < t.2.2) &&
        triContains (sites.getD t.1 0) (sites.getD t.2.1 0) (sites.getD t.2.2 0)
          (verts.getD i 0)) with
    | none =>
      simp only [hfind, Option.isSome_none, Bool.false_eq_true, false_iff]
      rw [List.find?_eq_none] at hfind
      push_neg
      intro t ht
      simpa using hfind t ht
    | some t =>
      simp only [hfind, Option.isSome_some, true_iff]
      have hp := List.find?_some hfind
      exact ⟨t, List.mem_of_find?_eq_some hfind, hp⟩
  constructor
  · intro hin
    obtain ⟨e, he⟩ := Option.isSome_iff_exists.mp (hiff.mpr hin)
    exact ⟨e, he, by rw [hv, he]⟩
  · intro hout
    have hnone : griddataLinear sites energies (verts.getD i 0) = none := by
      rcases hcase : griddataLinear sites energies (verts.getD i 0) with _ | e
      · rfl
      · exact absurd (hiff.mp (by rw [hcase]; rfl)) hout
    exact ⟨hnone, by rw [hv, hnone]⟩

/-- Witness for C7: three sites spanning a triangle, with one vertex inside
and one far outside the hull; the call succeeds with a total energy list. -/
theorem interpolate_to_vertices_spec_witness :
    interpolate_to_vertices [((0 : ℚ), (0 : ℚ)), (4, 0), (0, 4)] [1, 2, 3]
        [(1, 1), (100, 100)] =
      .ok (([((1 : ℚ), (1 : ℚ)), (100, 100)] : List V2).map (fun v =>
        match griddataLinear [((0 : ℚ), (0 : ℚ)), (4, 0), (0, 4)] [1, 2, 3] v with
        | some e => e
        | none => griddataNearest [((0 : ℚ), (0 : ℚ)), (4, 0), (0, 4)] [1, 2, 3] v)) :=
  (interpolate_to_vertices_spec [((0 : ℚ), (0 : ℚ)), (4, 0), (0, 4)] [1, 2, 3]
    [(1, 1), (100, 100)] (by decide)).1

/-- A squared norm is non-negative. -/
theorem normSq_nonneg (a : V3) : 0 ≤ normSq a := by
  have h1 := mul_self_nonneg a.1
  have h2 := mul_self_nonneg a.2.1
  have h3 := mul_self_nonneg a.2.2
  unfold normSq dot
  linarith

/-- The squared distance is symmetric. -/
theorem normSq_sub_comm (a b : V3) : normSq (a - b) = normSq (b - a) := by
  simp only [normSq, dot, Prod.fst_sub, Prod.snd_sub]
  ring

/-- The below-threshold test of the deduplication loop is symmetric. -/
theorem normLt_sub_comm (a b : V3) (d : ℚ) :
    normLt (a - b) d ↔ normLt (b - a) d := by
  unfold normLt
  rw [normSq_sub_comm]

/-- Negating the first argument negates a dot product. -/
theorem dot_neg_left (a b : V3) : dot (-a) b = -dot a b := by
  simp only [dot, Prod.fst_neg, Prod.snd_neg]
  ring

/-- Invariants of the deduplication loop: the accepted list only grows (by
a sublist of the remaining candidates, in order), pairwise separation is
preserved, and every candidate either ends up accepted or is within the
threshold distance of some accepted site. -/
theorem dedupLoop_spec (d : ℚ) :
    ∀ (l acc : List AdsSite),
      acc.Pairwise (fun a b => ¬ normLt (a.site - b.site) d) →
      (∃ l', dedupLoop d acc l = acc ++ l' ∧ List.Sublist l' l) ∧
      (dedupLoop d acc l).Pairwise (fun a b => ¬ normLt (a.site - b.site) d) ∧
      ∀ s ∈ l, s ∈ dedupLoop d acc l ∨
        ∃ u ∈ dedupLoop d acc l, normLt (s.site - u.site) d := by
  intro l
  induction l with
  | nil =>
    intro acc hacc
    exact ⟨⟨[], by simp [dedupLoop], List.Sublist.refl _⟩, by simpa [dedupLoop], by simp⟩
  | cons s ss ih =>
    intro acc hacc
    by_cases hdup : acc.any (fun u => decide (normLt (s.site - u.site) d)) = true
    · have heq : dedupLoop d acc (s :: ss) = dedupLoop d acc ss := by
        simp [dedupLoop, hdup]
      obtain ⟨⟨l', hl', hsub⟩, hpw, hcov⟩ := ih acc hacc
      refine ⟨⟨l', by rw [heq]; exact hl', hsub.cons _⟩, by rw [heq]; exact hpw, ?_⟩
      intro x hx
      rcases List.mem_cons.mp hx with rfl | hx
      · right
        obtain ⟨u, hu, hnear⟩ := List.any_eq_true.mp hdup
        refine ⟨u, ?_, of_decide_eq_true hnear⟩
        rw [heq, hl']
        exact List.mem_append_left _ hu
      · rw [heq]
        exact hcov x hx
    · have hnotnear : ∀ u ∈ acc, ¬ normLt (s.site - u.site) d := by
        intro u hu hcontra
        exact hdup (List.any_eq_true.mpr ⟨u, hu, decide_eq_true hcontra⟩)
      have heq : dedupLoop d acc (s :: ss) = dedupLoop d (acc ++ [s]) ss := by
        simp only [dedupLoop]
        rw [if_neg hdup]
      have hacc' : (acc ++ [s]).Pairwise (fun a b => ¬ normLt (a.site - b.site) d) := by
        rw [List.pairwise_append]
        refine ⟨hacc, by simp, ?_⟩
        intro a ha b hb
        rcases List.mem_singleton.mp hb with rfl
        intro hcontra
        exact hnotnear a ha ((normLt_sub_comm _ _ _).mpr hcontra)
      obtain ⟨⟨l', hl', hsub⟩, hpw, hcov⟩ := ih (acc ++ [s]) hacc'
      refine ⟨⟨s :: l', ?_, hsub.cons₂ s⟩, by rw [heq]; exact hpw, ?_⟩
      · rw [heq, hl']
        simp
      · intro x hx
        rcases List.mem_cons.mp hx with rfl | hx
        · left
          rw [heq, hl']
          simp
        · rw [heq]
          exact hcov x hx

/-- The deduplicated list is a sublist (in discovery order) of the
candidate list. -/
theorem deduplicate_sites_sublist (d : ℚ) (sites : List AdsSite) :
    List.Sublist (deduplicate_sites d sites) sites := by
  cases sites with
  | nil => simp [deduplicate_sites]
  | cons s ss =>
    obtain ⟨⟨l', hl', hsub⟩, _, _⟩ := dedupLoop_spec d ss [s] (by simp)
    show (dedupLoop d [s] ss).Sublist (s :: ss)
    rw [hl']
    exact hsub.cons₂ s

/-- A nonempty candidate list deduplicates to a nonempty accepted list
(the first candidate is always accepted). -/
theorem deduplicate_sites_ne_nil (d : ℚ) (s : AdsSite) (ss : List AdsSite) :
    deduplicate_sites d (s :: ss) ≠ [] := by
  obtain ⟨⟨l', hl', _⟩, _, _⟩ := dedupLoop_spec d ss [s] (by simp)
  show dedupLoop d [s] ss ≠ []
  rw [hl']
  simp

/-- C6: in any run of `HollowSiteFinder._deduplicate_sites`, any two
distinct accepted sites are at least `deduplication_distance` apart
(`normLt` is the exact rendering of `distance < deduplication_distance`);
candidates are examined in discovery order (the accepted list is a sublist
of the candidates), and a rejected candidate is always within the
threshold of some accepted site. -/
theorem deduplicate_sites_spec (d : ℚ) (sites : List AdsSite) :
    List.Sublist (deduplicate_sites d sites) sites ∧
    (deduplicate_sites d sites).Pairwise
      (fun a b => ¬ normLt (a.site - b.site) d) ∧
    ∀ s ∈ sites, s ∈ deduplicate_sites d sites ∨
      ∃ u ∈ deduplicate_sites d sites, normLt (s.site - u.site) d := by
  cases sites with
  | nil => simp [deduplicate_sites]
  | cons s ss =>
    obtain ⟨⟨l', hl', hsub⟩, hpw, hcov⟩ := dedupLoop_spec d ss [s] (by simp)
    refine ⟨?_, ?_, ?_⟩
    · show (dedupLoop d [s] ss).Sublist (s :: ss)
      rw [hl']
      exact hsub.cons₂ s
    · show List.Pairwise _ (dedupLoop d [s] ss)
      exact hpw
    · intro x hx
      rcases List.mem_cons.mp hx with rfl | hx
      · left
        show x ∈ dedupLoop d [x] ss
        rw [hl']
        simp
      · show x ∈ dedupLoop d [s] ss ∨ ∃ u ∈ dedupLoop d [s] ss, normLt (x.site - u.site) d
        exact hcov x hx

/-- Witness for C6: two coincident candidates and a positive threshold;
the accepted list is a sublist of the candidates. -/
theorem deduplicate_sites_spec_witness :
    List.Sublist (deduplicate_sites 1 [⟨0, (0, 0, 1), "Hollow"⟩, ⟨0, (0, 0, 1), "Hollow"⟩])
      [⟨0, (0, 0, 1), "Hollow"⟩, ⟨0, (0, 0, 1), "Hollow"⟩] :=
  (deduplicate_sites_spec 1 [⟨0, (0, 0, 1), "Hollow"⟩, ⟨0, (0, 0, 1), "Hollow"⟩]).1

/-- The cluster normal always has a non-negative dot product with the
nominal outward direction: either it is the outward direction itself, or a
cross product flipped to agree in sign with it. -/
theorem cluster_normal_dot_nonneg (k : ℕ) (cluster : List V3) (away : V3) :
    0 ≤ dot (calculate_cluster_normal k cluster away) away := by
  simp only [calculate_cluster_normal]
  split_ifs with h1 h2 h3
  · rw [dot_neg_left]
    linarith
  · exact le_of_not_lt h3
  · exact normSq_nonneg away
  · exact normSq_nonneg away

/-- C5: every site returned by `HollowSiteFinder.find_sites` or
`OnTopSiteFinder.find_sites` has a normal whose dot product with the
axis-aligned outward vector determined by `surface_axis` and
`place_on_bottom` is non-negative (the on-top finder's normal is that
outward vector itself). -/
theorem finder_normals_outward (k : ℕ) (d : ℚ) (axis : Fin 3) (bottom : Bool)
    (coords : List V3) (target : String) (idxs : List ℕ)
    (slab : List (String × V3)) :
    (∀ s ∈ hollow_find_sites k d axis bottom coords,
      0 ≤ dot s.normal (get_surface_normal axis bottom)) ∧
    (∀ s ∈ ontop_find_sites target axis bottom idxs slab,
      s.normal = get_surface_normal axis bottom ∧
      0 ≤ dot s.normal (get_surface_normal axis bottom)) := by
  constructor
  · intro s hs
    simp only [hollow_find_sites] at hs
    split_ifs at hs with hguard
    · simp at hs
    · have hmem := (deduplicate_sites_sublist d _).subset hs
      simp only [List.mem_map, List.mem_range] at hmem
      obtain ⟨i, _, rfl⟩ := hmem
      exact cluster_normal_dot_nonneg k _ _
  · intro s hs
    simp only [ontop_find_sites, List.mem_filterMap] at hs
    obtain ⟨idx, _, heq⟩ := hs
    split_ifs at heq
    cases heq
    exact ⟨rfl, normSq_nonneg _⟩

/-- Witness for C5: a one-atom oxygen slab yields one on-top site whose
normal is the outward axis vector. -/
theorem finder_normals_outward_witness :
    (⟨(0, 0, 0), (0, 0, 1), "On-Top"⟩ : AdsSite).normal =
      get_surface_normal 2 false ∧
    0 ≤ dot (⟨(0, 0, 0), (0, 0, 1), "On-Top"⟩ : AdsSite).normal
      (get_surface_normal 2 false) :=
  (finder_normals_outward 2 1 2 false [] "O" [0] [("O", (0, 0, 0))]).2
    ⟨(0, 0, 0), (0, 0, 1), "On-Top"⟩ (by decide)

/-- C10: `HollowSiteFinder.find_sites` returns the empty list exactly when
fewer than `knn_neighbors + 1` surface atoms are supplied; with at least
`knn_neighbors + 1` atoms the result is non-empty, because every atom
contributes a candidate and deduplication always accepts the first
candidate. -/
theorem hollow_find_sites_empty_iff (k : ℕ) (d : ℚ) (axis : Fin 3)
    (bottom : Bool) (coords : List V3) :
    hollow_find_sites k d axis bottom coords = [] ↔ coords.length < k + 1 := by
  constructor
  · intro h
    by_contra hge
    push_neg at hge
    simp only [hollow_find_sites] at h
    rw [if_neg (not_lt.mpr hge)] at h
    have hlen : 0 < coords.length := lt_of_lt_of_le (Nat.succ_pos k) hge
    cases hrange : List.range coords.length with
    | nil =>
      have := List.length_range coords.length
      rw [hrange] at this
      simp at this
      omega
    | cons i is =>
      rw [hrange] at h
      simp only [List.map_cons] at h
      exact deduplicate_sites_ne_nil d _ _ h
  · intro h
    simp only [hollow_find_sites]
    rw [if_pos h]

/-- Witness for C10: two atoms with `knn_neighbors = 2` are too few, and
the finder indeed returns no sites. -/
theorem hollow_find_sites_empty_iff_witness :
    hollow_find_sites 2 (3/2) 2 false [(0, 0, 0), (1, 0, 0)] = [] :=
  (hollow_find_sites_empty_iff 2 (3/2) 2 false [(0, 0, 0), (1, 0, 0)]).mpr
    (by decide)

/-- C1 counterexample: the list handed to the persistence/visualization
collaborator by `_create_visualization_data` is written in insertion order,
not sorted by adsorption energy: for two results with energies `2` then
`1`, the persisted energies are `[2, 1]`, which is not non-decreasing. -/
theorem visualization_data_unsorted_counterexample :
    ¬ ((create_visualization_data
        [⟨2, "Hollow", (0, 0, 0), 1⟩, ⟨1, "Hollow", (0, 0, 0), 2⟩]).map
        (fun t => t.2.1)).Sorted (· ≤ ·) := by
  have h2 : pyRound4 2 = 2 := by
    unfold pyRound4 pyRoundInt
    norm_num
  have h1 : pyRound4 1 = 1 := by
    unfold pyRound4 pyRoundInt
    norm_num
  have heval : ((create_visualization_data
      [⟨2, "Hollow", (0, 0, 0), 1⟩, ⟨1, "Hollow", (0, 0, 0), 2⟩]).map
      (fun t => t.2.1)) = [2, 1] := by
    simp [create_visualization_data, h1, h2]
  rw [heval]
  simp only [List.Sorted, List.pairwise_cons, List.mem_singleton]
  intro hcontra
  have := hcontra.1 1 rfl
  norm_num at this

/-- C1 (amended): the results list ranked by `_save_summary` is sorted by
non-decreasing `adsorption_energy`, is a permutation of the produced
results, and is stable (any energy-ordered pair keeps its insertion order);
the list handed to the persistence/visualization collaborator by
`_create_visualization_data`, however, carries the results' energies in
insertion order, not re-sorted. -/
theorem ranking_sorted_stable (results : List ResultInfo) :
    ((save_summary_sorted results).map (fun r => r.adsorption_energy)).Sorted (· ≤ ·) ∧
    (save_summary_sorted results).Perm results ∧
    (∀ a b : ResultInfo, List.Sublist [a, b] results →
      a.adsorption_energy ≤ b.adsorption_energy →
      List.Sublist [a, b] (save_summary_sorted results)) ∧
    (create_visualization_data results).map (fun t => t.2.1) =
      results.map (fun r => pyRound4 r.adsorption_energy) := by
  haveI htot : IsTotal ResultInfo (fun a b => a.adsorption_energy ≤ b.adsorption_energy) :=
    ⟨fun a b => le_total _ _⟩
  haveI htrans : IsTrans ResultInfo (fun a b => a.adsorption_energy ≤ b.adsorption_energy) :=
    ⟨fun _ _ _ hab hbc => le_trans hab hbc⟩
  refine ⟨?_, List.perm_insertionSort _ results, ?_, ?_⟩
  · have hsorted := List.sorted_insertionSort
      (fun a b : ResultInfo => a.adsorption_energy ≤ b.adsorption_energy) results
    exact List.Pairwise.map _ (fun a b h => h) hsorted
  · intro a b hsub hab
    exact List.pair_sublist_insertionSort hab hsub
  · simp [create_visualization_data]

/-- Witness for C1 (amended): two tied results keep their insertion order
in the ranked list. -/
theorem ranking_sorted_stable_witness :
    List.Sublist [(⟨1, "A", (0, 0, 0), 1⟩ : ResultInfo), ⟨1, "B", (0, 0, 0), 2⟩]
      (save_summary_sorted [⟨1, "A", (0, 0, 0), 1⟩, ⟨1, "B", (0, 0, 0), 2⟩]) :=
  (ranking_sorted_stable [⟨1, "A", (0, 0, 0), 1⟩, ⟨1, "B", (0, 0, 0), 2⟩]).2.2.1
    ⟨1, "A", (0, 0, 0), 1⟩ ⟨1, "B", (0, 0, 0), 2⟩ (List.Sublist.refl _) (le_refl _)

end Absorb
